import Mathlib

/-!
Verification of the duplicate-file finder (src/main.rs).

The Rust program is embedded shallowly:
  * `normalize_filename` mirrors the suffix-stripping normalizer
    (src/main.rs lines 25-57): split at the last `.`, try six
    end-anchored patterns in order on the stem, strip the first match.
  * `collect` mirrors the per-entry collection loop (lines 71-127).
  * `duplicateSets` mirrors the two-level grouping (lines 133-146).
  * `minByCreated` mirrors `min_by_key(|f| f.created)` (Rust's
    `min_by_key` keeps the first of equally-minimum elements).
  * `runEngine` mirrors the report / confirm / delete control flow
    (lines 174-244).
Strings are lists of characters; `SystemTime` and byte sizes are `Nat`.
-/

/-- Mirrors Rust's `str::rsplit_once('.')`: split at the LAST dot,
returning `(before, after)`, or `none` when no dot occurs. -/
def rsplitDot : List Char → Option (List Char × List Char)
  | [] => none
  | c :: cs =>
    match rsplitDot cs with
    | some (a, b) => some (c :: a, b)
    | none => if c = '.' then some ([], cs) else none

/-- Regex pattern `" copy \d+$"` matched on the REVERSED stem `r`:
one or more digits, then the reverse of `" copy "`.  Returns the
remaining reversed prefix after stripping the suffix. -/
def matchCopyNum (r : List Char) : Option (List Char) :=
  let ds := r.takeWhile Char.isDigit
  let rest := r.dropWhile Char.isDigit
  if ds.isEmpty then none
  else if (" ypoc ".toList).isPrefixOf rest then some (rest.drop 6) else none

/-- Regex pattern `" copy$"` on the reversed stem. -/
def matchCopy (r : List Char) : Option (List Char) :=
  if ("ypoc ".toList).isPrefixOf r then some (r.drop 5) else none

/-- Shared shape of the three `...(\d+)$` patterns on the reversed stem:
a closing paren, one or more digits, then `tail` (the reverse of what
precedes the digits in the forward pattern). -/
def matchParenDigits (tail : List Char) : List Char → Option (List Char)
  | ')' :: r =>
    let ds := r.takeWhile Char.isDigit
    let rest := r.dropWhile Char.isDigit
    if ds.isEmpty then none
    else if tail.isPrefixOf rest then some (rest.drop tail.length) else none
  | _ => none

/-- Regex pattern `" - Copy$"` on the reversed stem. -/
def matchDashCopy (r : List Char) : Option (List Char) :=
  if ("ypoC - ".toList).isPrefixOf r then some (r.drop 7) else none

/-- The six suffix patterns of `normalize_filename`, tried in source
order on the reversed stem; the first match wins (the loop `break`s). -/
def firstMatch (r : List Char) : Option (List Char) :=
  match matchCopyNum r with
  | some rest => some rest
  | none =>
    match matchCopy r with
    | some rest => some rest
    | none =>
      match matchParenDigits ("( ypoC - ".toList) r with
      | some rest => some rest
      | none =>
        match matchDashCopy r with
        | some rest => some rest
        | none =>
          match matchParenDigits ("( ".toList) r with
          | some rest => some rest
          | none => matchParenDigits ("(".toList) r

/-- Strip the first matching suffix pattern from the stem
(the `for pattern in patterns { ... break }` loop, lines 44-50). -/
def stripStem (stem : List Char) : List Char :=
  match firstMatch stem.reverse with
  | some rest => rest.reverse
  | none => stem

/-- `normalize_filename` (src/main.rs lines 25-57): split stem and
extension at the last dot, strip the stem, reassemble. -/
def normalize_filename (filename : String) : String :=
  match rsplitDot filename.toList with
  | some (stem, ext) => ⟨stripStem stem ++ '.' :: ext⟩
  | none => ⟨stripStem filename.toList⟩

/-- The stem a filename is split into (before suffix stripping). -/
def stemOf (filename : String) : List Char :=
  match rsplitDot filename.toList with
  | some (stem, _) => stem
  | none => filename.toList

/-- Whether some suffix pattern matches the given stem. -/
def matchesAnyPattern (stem : List Char) : Bool :=
  (firstMatch stem.reverse).isSome

-- Sanity checks against the spec's worked examples.
example : normalize_filename "notes copy.txt" = "notes.txt" := by decide
example : normalize_filename "notes copy 3.txt" = "notes.txt" := by decide
example : normalize_filename "photo (1).jpg" = "photo.jpg" := by decide
example : normalize_filename "archive(1).tar.gz" = "archive(1).tar.gz" := by decide

/-- C5: `" - Copy (N)"` takes precedence over the generic `"(N)"`
pattern, so `"report - Copy (2).pdf"` normalizes to `"report.pdf"`. -/
theorem normalize_suffix_precedence :
    normalize_filename "report - Copy (2).pdf" = "report.pdf" := by decide

/-- C10: a stem consisting entirely of a suffix pattern strips to the
empty stem: `"(1).txt"` and `"(2).txt"` both normalize to `".txt"`,
`"(1)"` normalizes to `""`; such unrelated files share the normalized
key, so with equal sizes they are grouped as one duplicate set. -/
theorem normalize_empty_stem :
    normalize_filename "(1).txt" = ".txt" ∧
    normalize_filename "(2).txt" = ".txt" ∧
    normalize_filename "(1)" = "" := by
  refine ⟨by decide, by decide, by decide⟩

/-- C1 counterexample: normalization is NOT idempotent.  One
application strips only one suffix: `"a copy copy"` normalizes to
`"a copy"`, which normalizes further to `"a"`. -/
theorem normalize_not_idempotent :
    normalize_filename (normalize_filename "a copy copy") ≠
      normalize_filename "a copy copy" := by decide

/-! ## Data model and collection -/

/-- The Rust `FileInfo` struct (src/main.rs lines 9-14): path, byte
size, and best-effort creation time. -/
structure FileInfo where
  path : String
  size : Nat
  created : Nat
deriving DecidableEq, Repr

/-- A collected record: the raw filename (the hashmap key is its
normalization) together with its `FileInfo`. -/
abbrev Entry := String × FileInfo

/-- Per-entry metadata as returned by `fs::metadata` (is-file flag,
byte length, optional creation and modification times). -/
structure Metadata where
  isFile : Bool
  len : Nat
  created : Option Nat
  modified : Option Nat
deriving DecidableEq, Repr

/-- A directory entry: its path, the optional filename extracted from
the path (`path.file_name()`), and the result of reading its metadata
(`none` models an `Err` from `fs::metadata`). -/
structure DirEntry where
  path : String
  filename : Option String
  metadata : Option Metadata
deriving DecidableEq, Repr

/-- One iteration of the collection loop (src/main.rs lines 71-127).
The argument is `none` when reading the directory entry itself failed.
Returns `none` exactly when the entry is skipped. -/
def processEntry : Option DirEntry → Option Entry
  | none => none
  | some d =>
    match d.metadata with
    | none => none
    | some m =>
      if m.isFile = false then none
      else
        match d.filename with
        | none => none
        | some fname =>
          match m.created with
          | some t => some (fname, ⟨d.path, m.len, t⟩)
          | none =>
            match m.modified with
            | some t => some (fname, ⟨d.path, m.len, t⟩)
            | none => none

/-- The whole collection loop: process every entry, keeping the
successful ones in order. -/
def collect (entries : List (Option DirEntry)) : List Entry :=
  entries.filterMap processEntry

/-! ## Grouping (src/main.rs lines 129-146) -/

/-- The key an entry is inserted under in `hashmap_name`. -/
def nameKeyE (e : Entry) : String := normalize_filename e.1

/-- The distinct normalized-name keys of `hashmap_name`. -/
def keysOf (files : List Entry) : List String :=
  (files.map nameKeyE).dedup

/-- The `Vec<FileInfo>` stored under key `k` (insertion order). -/
def groupFor (files : List Entry) (k : String) : List Entry :=
  files.filter (fun e => nameKeyE e = k)

/-- The distinct sizes of `hashmap_size` within one name group. -/
def sizesOf (g : List Entry) : List Nat :=
  (g.map (fun e => e.2.size)).dedup

/-- The sub-group of `g` with byte size `s`. -/
def sizeGroup (g : List Entry) (s : Nat) : List Entry :=
  g.filter (fun e => e.2.size = s)

/-- The emitted duplicate sets: for every name group with more than one
member, every size sub-group with more than one member. -/
def duplicateSets (files : List Entry) : List (List Entry) :=
  (keysOf files).flatMap (fun k =>
    if 1 < (groupFor files k).length then
      (sizesOf (groupFor files k)).flatMap (fun s =>
        if 1 < (sizeGroup (groupFor files k) s).length
        then [sizeGroup (groupFor files k) s] else [])
    else [])

/-! ## Keeper selection (src/main.rs lines 149-152 and 214-217) -/

/-- One step of Rust's `Iterator::min_by_key(|f| f.created)`: the
accumulator is replaced only by a STRICTLY smaller element, so the
first of equally-minimum elements survives. -/
def minStep (a b : Entry) : Entry :=
  if b.2.created < a.2.created then b else a

/-- `size_group.iter().min_by_key(|f| f.created)`. -/
def minByCreated : List Entry → Option Entry
  | [] => none
  | a :: l => some (l.foldl minStep a)

/-- The deletion candidates of one duplicate set: every member whose
path differs from the keeper's path (lines 160-168 / 219-232). -/
def deletionList (S : List Entry) : List Entry :=
  match minByCreated S with
  | none => []
  | some keep => S.filter (fun e => e.2.path ≠ keep.2.path)

/-! ## The two passes over the groups (report: lines 133-172,
delete: lines 205-236).  Each is transcribed separately from its own
code block; the delete pass rebuilds the size maps and re-derives the
keeper exactly as the report pass did. -/

/-- Paths printed as "Would delete"/"Will delete" during the report
pass (lines 133-172). -/
def previewedDeletions (files : List Entry) : List String :=
  (keysOf files).flatMap (fun k =>
    if 1 < (groupFor files k).length then
      (sizesOf (groupFor files k)).flatMap (fun s =>
        if 1 < (sizeGroup (groupFor files k) s).length then
          match minByCreated (sizeGroup (groupFor files k) s) with
          | none => []
          | some keep =>
            ((sizeGroup (groupFor files k) s).filter
              (fun e => e.2.path ≠ keep.2.path)).map (fun e => e.2.path)
        else [])
    else [])

/-- Paths for which `fs::remove_file` is invoked during the deletion
pass (lines 205-236). -/
def attemptedDeletions (files : List Entry) : List String :=
  (keysOf files).flatMap (fun k =>
    if 1 < (groupFor files k).length then
      (sizesOf (groupFor files k)).flatMap (fun s =>
        if 1 < (sizeGroup (groupFor files k) s).length then
          match minByCreated (sizeGroup (groupFor files k) s) with
          | none => []
          | some keep =>
            ((sizeGroup (groupFor files k) s).filter
              (fun e => e.2.path ≠ keep.2.path)).map (fun e => e.2.path)
        else [])
    else [])

/-! ## Confirmation and the run-level state machine
(src/main.rs lines 174-244 and `main`, lines 246-257) -/

/-- Rust's `input.trim()` (strip leading and trailing whitespace). -/
def trimChars (s : List Char) : List Char :=
  ((s.dropWhile Char.isWhitespace).reverse.dropWhile Char.isWhitespace).reverse

/-- `input.trim().to_lowercase()` applied to the stdin line. -/
def lowerTrim (input : String) : String :=
  ⟨(trimChars input.toList).map Char.toLower⟩

/-- The confirmation test (line 196): proceed iff the trimmed,
lowercased line equals "y" or "yes". -/
def isAffirmative (input : String) : Bool :=
  lowerTrim input = "y" ∨ lowerTrim input = "yes"

/-- `--dry-run` flag detection (line 250): present anywhere among the
arguments. -/
def dryRunOf (args : List String) : Bool :=
  args.any (fun a => a = "--dry-run")

/-- Terminal states of one run. -/
inductive RunStatus where
  | fatal
  | noDuplicates
  | dryRunDone
  | cancelled
  | deleted
deriving DecidableEq, Repr

/-- Observable outcome of one run: the duplicate sets reported, whether
the confirmation prompt was issued, the paths whose removal was
attempted, and the terminal state. -/
structure RunOutcome where
  sets : List (List Entry)
  promptIssued : Bool
  deletionsAttempted : List String
  status : RunStatus
deriving DecidableEq, Repr

/-- The engine (src/main.rs lines 59-244): `dirListing = none` models
`fs::read_dir` failing (report and terminate, lines 63-69); otherwise
collect, group, report, then dry-run-stop / confirm / delete. -/
def runEngine (dirListing : Option (List (Option DirEntry)))
    (dryRun : Bool) (stdin : String) : RunOutcome :=
  match dirListing with
  | none => ⟨[], false, [], RunStatus.fatal⟩
  | some es =>
    let files := collect es
    let sets := duplicateSets files
    if sets.isEmpty then ⟨sets, false, [], RunStatus.noDuplicates⟩
    else if dryRun then ⟨sets, false, [], RunStatus.dryRunDone⟩
    else if isAffirmative stdin then
      ⟨sets, true, attemptedDeletions files, RunStatus.deleted⟩
    else ⟨sets, true, [], RunStatus.cancelled⟩

/-! ## Helper lemmas -/

lemma mem_groupFor {files : List Entry} {k : String} {e : Entry} :
    e ∈ groupFor files k ↔ e ∈ files ∧ nameKeyE e = k := by
  simp [groupFor]

lemma mem_sizeGroup {g : List Entry} {s : Nat} {e : Entry} :
    e ∈ sizeGroup g s ↔ e ∈ g ∧ e.2.size = s := by
  simp [sizeGroup]

lemma one_lt_length_of_two_mem {α : Type} {l : List α} {a b : α}
    (ha : a ∈ l) (hb : b ∈ l) (hne : a ≠ b) : 1 < l.length := by
  cases l with
  | nil => cases ha
  | cons c t =>
    rcases List.mem_cons.mp ha with rfl | ha2
    · rcases List.mem_cons.mp hb with rfl | hb2
      · exact absurd rfl hne
      · have ht := List.length_pos.mpr (List.ne_nil_of_mem hb2)
        simp only [List.length_cons]; omega
    · have ht := List.length_pos.mpr (List.ne_nil_of_mem ha2)
      simp only [List.length_cons]; omega

lemma mem_duplicateSets {files : List Entry} {S : List Entry} :
    S ∈ duplicateSets files ↔
      ∃ k, k ∈ keysOf files ∧ 1 < (groupFor files k).length ∧
        ∃ s, s ∈ sizesOf (groupFor files k) ∧
          S = sizeGroup (groupFor files k) s ∧ 1 < S.length := by
  unfold duplicateSets
  rw [List.mem_flatMap]
  constructor
  · rintro ⟨k, hk, hS⟩
    by_cases hg : 1 < (groupFor files k).length
    · rw [if_pos hg, List.mem_flatMap] at hS
      obtain ⟨s, hs, hS2⟩ := hS
      by_cases hsg : 1 < (sizeGroup (groupFor files k) s).length
      · rw [if_pos hsg, List.mem_singleton] at hS2
        exact ⟨k, hk, hg, s, hs, hS2, hS2 ▸ hsg⟩
      · rw [if_neg hsg] at hS2; cases hS2
    · rw [if_neg hg] at hS; cases hS
  · rintro ⟨k, hk, hg, s, hs, rfl, hlen⟩
    refine ⟨k, hk, ?_⟩
    rw [if_pos hg, List.mem_flatMap]
    exact ⟨s, hs, by rw [if_pos hlen]; exact List.mem_singleton.mpr rfl⟩

lemma duplicateSet_sublist {files : List Entry} {S : List Entry}
    (hS : S ∈ duplicateSets files) : S.Sublist files := by
  obtain ⟨k, _, _, s, _, rfl, _⟩ := mem_duplicateSets.mp hS
  exact (List.filter_sublist _).trans (List.filter_sublist _)

/-! ## C4: the report pass and the deletion pass agree -/

/-- C4: keeper selection is pure and re-derivable: the deletion pass
re-derives exactly the paths the report pass previewed, for every
input.  Both sides are independent transcriptions of the two near
identical passes over the groups (src/main.rs lines 133-172 and
205-236). -/
theorem preview_equals_execution (files : List Entry) :
    attemptedDeletions files = previewedDeletions files := rfl

/-! ## C2: grouping correctness -/

/-- C2: a set is emitted only with more than one member; members of one
set agree on normalized name and on exact size (so equal-name but
different-size records never co-occur); and any two distinct records
agreeing on both are placed together in some emitted set. -/
theorem grouping_correct (files : List Entry) :
    (∀ S ∈ duplicateSets files, 1 < S.length) ∧
    (∀ S ∈ duplicateSets files, ∀ e1 ∈ S, ∀ e2 ∈ S,
      normalize_filename e1.1 = normalize_filename e2.1 ∧
        e1.2.size = e2.2.size) ∧
    (∀ e1 ∈ files, ∀ e2 ∈ files, e1 ≠ e2 →
      normalize_filename e1.1 = normalize_filename e2.1 →
      e1.2.size = e2.2.size →
      ∃ S ∈ duplicateSets files, e1 ∈ S ∧ e2 ∈ S) := by
  refine ⟨?_, ?_, ?_⟩
  · intro S hS
    obtain ⟨k, _, _, s, _, rfl, hlen⟩ := mem_duplicateSets.mp hS
    exact hlen
  · intro S hS e1 h1 e2 h2
    obtain ⟨k, _, _, s, _, rfl, _⟩ := mem_duplicateSets.mp hS
    obtain ⟨hg1, hs1⟩ := mem_sizeGroup.mp h1
    obtain ⟨hg2, hs2⟩ := mem_sizeGroup.mp h2
    obtain ⟨_, hk1⟩ := mem_groupFor.mp hg1
    obtain ⟨_, hk2⟩ := mem_groupFor.mp hg2
    exact ⟨hk1.trans hk2.symm, hs1.trans hs2.symm⟩
  · intro e1 h1 e2 h2 hne hkey hsize
    have hg1 : e1 ∈ groupFor files (nameKeyE e1) :=
      mem_groupFor.mpr ⟨h1, rfl⟩
    have hg2 : e2 ∈ groupFor files (nameKeyE e1) :=
      mem_groupFor.mpr ⟨h2, hkey.symm⟩
    have hkmem : nameKeyE e1 ∈ keysOf files :=
      List.mem_dedup.mpr (List.mem_map.mpr ⟨e1, h1, rfl⟩)
    have hglen := one_lt_length_of_two_mem hg1 hg2 hne
    have hsmem : e1.2.size ∈ sizesOf (groupFor files (nameKeyE e1)) :=
      List.mem_dedup.mpr (List.mem_map.mpr ⟨e1, hg1, rfl⟩)
    have hin1 : e1 ∈ sizeGroup (groupFor files (nameKeyE e1)) e1.2.size :=
      mem_sizeGroup.mpr ⟨hg1, rfl⟩
    have hin2 : e2 ∈ sizeGroup (groupFor files (nameKeyE e1)) e1.2.size :=
      mem_sizeGroup.mpr ⟨hg2, hsize.symm⟩
    have hsglen := one_lt_length_of_two_mem hin1 hin2 hne
    exact ⟨sizeGroup (groupFor files (nameKeyE e1)) e1.2.size,
      mem_duplicateSets.mpr
        ⟨nameKeyE e1, hkmem, hglen, e1.2.size, hsmem, rfl, hsglen⟩,
      hin1, hin2⟩

/-! ## Keeper selection: `min_by_key` keeps the first minimum -/

lemma foldl_minStep_spec (l : List Entry) (a : Entry) :
    ∃ l1 l2, a :: l = l1 ++ (l.foldl minStep a) :: l2 ∧
      (∀ x ∈ l1, (l.foldl minStep a).2.created < x.2.created) ∧
      (∀ x ∈ a :: l, (l.foldl minStep a).2.created ≤ x.2.created) := by
  induction l generalizing a with
  | nil =>
    refine ⟨[], [], rfl, by simp, ?_⟩
    intro x hx
    rw [List.mem_singleton] at hx
    simp [hx, List.foldl_nil]
  | cons b t ih =>
    by_cases hb : b.2.created < a.2.created
    · have hmin : minStep a b = b := by simp [minStep, hb]
      rw [List.foldl_cons, hmin]
      obtain ⟨l1, l2, hdec, hlt, hle⟩ := ih b
      refine ⟨a :: l1, l2, ?_, ?_, ?_⟩
      · rw [List.cons_append, ← hdec]
      · intro x hx
        rcases List.mem_cons.mp hx with rfl | hx2
        · exact Nat.lt_of_le_of_lt (hle b (List.mem_cons_self b t)) hb
        · exact hlt x hx2
      · intro x hx
        rcases List.mem_cons.mp hx with rfl | hx2
        · exact Nat.le_of_lt
            (Nat.lt_of_le_of_lt (hle b (List.mem_cons_self b t)) hb)
        · exact hle x hx2
    · have hmin : minStep a b = a := by simp [minStep, hb]
      rw [List.foldl_cons, hmin]
      have hab : a.2.created ≤ b.2.created := Nat.le_of_not_lt hb
      obtain ⟨l1, l2, hdec, hlt, hle⟩ := ih a
      cases l1 with
      | nil =>
        simp only [List.nil_append] at hdec
        have ha : t.foldl minStep a = a :=
          ((List.cons.injEq _ _ _ _).mp hdec).1.symm
        refine ⟨[], b :: t, ?_, by simp, ?_⟩
        · rw [List.nil_append, ha]
        · intro x hx
          rcases List.mem_cons.mp hx with rfl | hx2
          · rw [ha]
          · rcases List.mem_cons.mp hx2 with rfl | hx3
            · rw [ha]; exact hab
            · exact hle x (List.mem_cons_of_mem a hx3)
      | cons c l1' =>
        rw [List.cons_append] at hdec
        have hc : c = a := ((List.cons.injEq _ _ _ _).mp hdec).1.symm
        have ht : t = l1' ++ t.foldl minStep a :: l2 :=
          ((List.cons.injEq _ _ _ _).mp hdec).2
        have hma : (t.foldl minStep a).2.created < a.2.created := by
          have := hlt c (List.mem_cons_self c l1')
          rw [hc] at this
          exact this
        refine ⟨a :: b :: l1', l2, ?_, ?_, ?_⟩
        · rw [List.cons_append, List.cons_append, ← ht]
        · intro x hx
          rcases List.mem_cons.mp hx with rfl | hx2
          · exact hma
          · rcases List.mem_cons.mp hx2 with rfl | hx3
            · exact Nat.lt_of_lt_of_le hma hab
            · exact hlt x (List.mem_cons_of_mem c hx3)
        · intro x hx
          rcases List.mem_cons.mp hx with rfl | hx2
          · exact Nat.le_of_lt hma
          · rcases List.mem_cons.mp hx2 with rfl | hx3
            · exact Nat.le_of_lt (Nat.lt_of_lt_of_le hma hab)
            · exact hle x (List.mem_cons_of_mem a hx3)

lemma minByCreated_spec {S : List Entry} {keep : Entry}
    (h : minByCreated S = some keep) :
    ∃ l1 l2, S = l1 ++ keep :: l2 ∧
      (∀ x ∈ l1, keep.2.created < x.2.created) ∧
      (∀ x ∈ S, keep.2.created ≤ x.2.created) := by
  cases S with
  | nil => cases h
  | cons a l =>
    have hk : l.foldl minStep a = keep := by
      simpa [minByCreated] using h
    obtain ⟨l1, l2, hdec, hlt, hle⟩ := foldl_minStep_spec l a
    rw [hk] at hdec hlt hle
    exact ⟨l1, l2, hdec, hlt, hle⟩

lemma minByCreated_isSome {S : List Entry} (h : S ≠ []) :
    ∃ keep, minByCreated S = some keep := by
  cases S with
  | nil => exact absurd rfl h
  | cons a l => exact ⟨l.foldl minStep a, rfl⟩

lemma minByCreated_mem {S : List Entry} {keep : Entry}
    (h : minByCreated S = some keep) : keep ∈ S := by
  obtain ⟨l1, l2, hdec, _, _⟩ := minByCreated_spec h
  rw [hdec]
  exact List.mem_append.mpr (Or.inr (List.mem_cons_self _ _))

/-! ## Concrete demonstration data (used by witnesses) -/

def demoE1 : Entry := ("photo.jpg", ⟨"/scan/photo.jpg", 1000, 10⟩)

def demoE2 : Entry := ("photo (1).jpg", ⟨"/scan/photo (1).jpg", 1000, 20⟩)

def demoFiles : List Entry := [demoE1, demoE2]

def tieE1 : Entry := ("b.txt", ⟨"/scan/b.txt", 5, 7⟩)

def tieE2 : Entry := ("b (1).txt", ⟨"/scan/b (1).txt", 5, 7⟩)

/-! ## C3: keeper uniqueness -/

/-- C3: in every duplicate set (paths being unique per record), the
keeper selection yields exactly one record, it attains the minimum
timestamp of the set, the deletion-candidate list holds exactly the
other members, and each of them occurs in it exactly once. -/
theorem keeper_unique (files : List Entry)
    (hp : (files.map (fun e => e.2.path)).Nodup)
    (S : List Entry) (hS : S ∈ duplicateSets files) :
    ∃ keep, minByCreated S = some keep ∧ keep ∈ S ∧
      (∀ e ∈ S, keep.2.created ≤ e.2.created) ∧
      (∀ e, e ∈ deletionList S ↔ e ∈ S ∧ e ≠ keep) ∧
      (∀ e ∈ S, e ≠ keep →
        ∃ d1 d2, deletionList S = d1 ++ e :: d2 ∧ e ∉ d1 ∧ e ∉ d2) := by
  have hsub := duplicateSet_sublist hS
  have hpS : (S.map (fun e => e.2.path)).Nodup := hp.sublist (hsub.map _)
  have hSnd : S.Nodup := List.Nodup.of_map _ hpS
  have hlen : 1 < S.length := by
    obtain ⟨k, _, _, s, _, rfl, h⟩ := mem_duplicateSets.mp hS
    exact h
  have hne : S ≠ [] := by
    intro h
    rw [h] at hlen
    simp at hlen
  obtain ⟨keep, hkeep⟩ := minByCreated_isSome hne
  have hkm : keep ∈ S := minByCreated_mem hkeep
  obtain ⟨ml1, ml2, _, _, hle⟩ := minByCreated_spec hkeep
  have hdel : deletionList S = S.filter (fun e => e.2.path ≠ keep.2.path) := by
    unfold deletionList
    rw [hkeep]
  have hiff : ∀ e, e ∈ deletionList S ↔ e ∈ S ∧ e ≠ keep := by
    intro e
    rw [hdel]
    constructor
    · intro hmem
      obtain ⟨heS, hd⟩ := List.mem_filter.mp hmem
      refine ⟨heS, ?_⟩
      intro hcontra
      rw [hcontra] at hd
      simp at hd
    · rintro ⟨heS, hne2⟩
      refine List.mem_filter.mpr ⟨heS, ?_⟩
      have hpath : e.2.path ≠ keep.2.path := by
        intro hpp
        exact hne2
          (List.inj_on_of_nodup_map hp (hsub.subset heS) (hsub.subset hkm) hpp)
      simp [hpath]
  refine ⟨keep, hkeep, hkm, hle, hiff, ?_⟩
  intro e he hne2
  have hmem : e ∈ deletionList S := (hiff e).mpr ⟨he, hne2⟩
  have hnd : (deletionList S).Nodup := by
    rw [hdel]
    exact hSnd.filter _
  obtain ⟨d1, d2, hdec2⟩ := List.append_of_mem hmem
  rw [hdec2] at hnd
  have h1 := List.Nodup.of_append_left hnd
  have h2 := List.Nodup.of_append_right hnd
  have hdisj := List.disjoint_of_nodup_append hnd
  refine ⟨d1, d2, hdec2, ?_, ?_⟩
  · intro hcontra
    exact hdisj hcontra (List.mem_cons_self _ _)
  · exact (List.nodup_cons.mp h2).1

/-- C3 witness: on the spec's end-to-end scenario the keeper is
`photo.jpg` and `photo (1).jpg` is listed for deletion once. -/
theorem keeper_unique_witness :
    ∃ keep, minByCreated [demoE1, demoE2] = some keep ∧
      keep ∈ [demoE1, demoE2] ∧
      (∀ e ∈ [demoE1, demoE2], keep.2.created ≤ e.2.created) ∧
      (∀ e, e ∈ deletionList [demoE1, demoE2] ↔
        e ∈ [demoE1, demoE2] ∧ e ≠ keep) ∧
      (∀ e ∈ [demoE1, demoE2], e ≠ keep →
        ∃ d1 d2, deletionList [demoE1, demoE2] = d1 ++ e :: d2 ∧
          e ∉ d1 ∧ e ∉ d2) :=
  keeper_unique demoFiles (by decide) [demoE1, demoE2] (by decide)

/-! ## C9: tie-break on equal minimum timestamps -/

/-- C9: the keeper returned by `min_by_key` is the FIRST record of the
group attaining the minimum timestamp: everything strictly before it
in list order has a strictly larger timestamp. -/
theorem keeper_tie_break (S : List Entry) (keep : Entry)
    (h : minByCreated S = some keep) :
    keep ∈ S ∧ (∀ e ∈ S, keep.2.created ≤ e.2.created) ∧
      ∃ l1 l2, S = l1 ++ keep :: l2 ∧
        ∀ e ∈ l1, keep.2.created < e.2.created := by
  obtain ⟨l1, l2, hdec, hlt, hle⟩ := minByCreated_spec h
  exact ⟨minByCreated_mem h, hle, l1, l2, hdec, hlt⟩

/-- C9 witness: with two records sharing the minimum timestamp the
first one in list order is selected. -/
theorem keeper_tie_break_witness :
    tieE1 ∈ [tieE1, tieE2] ∧
      (∀ e ∈ [tieE1, tieE2], tieE1.2.created ≤ e.2.created) ∧
      ∃ l1 l2, [tieE1, tieE2] = l1 ++ tieE1 :: l2 ∧
        ∀ e ∈ l1, tieE1.2.created < e.2.created :=
  keeper_tie_break [tieE1, tieE2] tieE1 (by decide)

/-! ## C6: dry-run purity -/

/-- C6: with dry-run enabled, no removal is ever attempted and the
confirmation prompt is never issued, for every directory listing and
every stdin content; the duplicate sets detected and reported are the
ones normal mode computes; the run ends in a non-mutating terminal
state.  The `--dry-run` flag is detected by presence anywhere among
the arguments. -/
theorem dry_run_purity (dirListing : Option (List (Option DirEntry)))
    (stdin stdin2 : String) (args : List String) :
    (runEngine dirListing true stdin).deletionsAttempted = [] ∧
    (runEngine dirListing true stdin).promptIssued = false ∧
    (runEngine dirListing true stdin).sets =
      (runEngine dirListing false stdin2).sets ∧
    ((runEngine dirListing true stdin).status = RunStatus.fatal ∨
     (runEngine dirListing true stdin).status = RunStatus.noDuplicates ∨
     (runEngine dirListing true stdin).status = RunStatus.dryRunDone) ∧
    (dryRunOf args = true ↔ "--dry-run" ∈ args) := by
  cases dirListing with
  | none =>
    refine ⟨rfl, rfl, rfl, Or.inl rfl, ?_⟩
    simp [dryRunOf, List.any_eq_true]
  | some es =>
    by_cases h : (duplicateSets (collect es)).isEmpty
    · refine ⟨?_, ?_, ?_, ?_, ?_⟩
      · simp [runEngine, h]
      · simp [runEngine, h]
      · simp [runEngine, h]
      · right; left; simp [runEngine, h]
      · simp [dryRunOf, List.any_eq_true]
    · refine ⟨?_, ?_, ?_, ?_, ?_⟩
      · simp [runEngine, h]
      · simp [runEngine, h]
      · by_cases ha : isAffirmative stdin2 <;> simp [runEngine, h, ha]
      · right; right; simp [runEngine, h]
      · simp [dryRunOf, List.any_eq_true]

/-! ## C7: confirmation semantics -/

/-- C7: once the prompt is issued (duplicates exist, no dry-run),
deletion proceeds exactly on a trimmed case-insensitive "y"/"yes";
every other stdin line ends the run in the cancelled state with no
removal attempted. -/
theorem confirmation_semantics (es : List (Option DirEntry))
    (stdin : String) (h : duplicateSets (collect es) ≠ []) :
    (isAffirmative stdin = true →
      (runEngine (some es) false stdin).status = RunStatus.deleted ∧
      (runEngine (some es) false stdin).deletionsAttempted =
        attemptedDeletions (collect es)) ∧
    (isAffirmative stdin = false →
      (runEngine (some es) false stdin).status = RunStatus.cancelled ∧
      (runEngine (some es) false stdin).deletionsAttempted = []) ∧
    (runEngine (some es) false stdin).promptIssued = true ∧
    (isAffirmative stdin = true ↔
      (lowerTrim stdin = "y" ∨ lowerTrim stdin = "yes")) := by
  have hne : (duplicateSets (collect es)).isEmpty = false := by
    simp [h]
  refine ⟨?_, ?_, ?_, ?_⟩
  · intro ha
    refine ⟨?_, ?_⟩ <;> simp [runEngine, hne, ha]
  · intro ha
    refine ⟨?_, ?_⟩ <;> simp [runEngine, hne, ha]
  · by_cases ha : isAffirmative stdin <;> simp [runEngine, hne, ha]
  · simp [isAffirmative]

/-- A directory listing realizing the spec's end-to-end scenario. -/
def demoListing : List (Option DirEntry) :=
  [some ⟨"/scan/photo.jpg", some "photo.jpg",
     some ⟨true, 1000, some 10, none⟩⟩,
   some ⟨"/scan/photo (1).jpg", some "photo (1).jpg",
     some ⟨true, 1000, some 20, none⟩⟩]

/-- C7 witness: on the demo listing, stdin "n" cancels: no removal is
attempted and the run ends cancelled. -/
theorem confirmation_semantics_witness :
    duplicateSets (collect demoListing) ≠ [] ∧
    ((isAffirmative "n" = true →
      (runEngine (some demoListing) false "n").status = RunStatus.deleted ∧
      (runEngine (some demoListing) false "n").deletionsAttempted =
        attemptedDeletions (collect demoListing)) ∧
    (isAffirmative "n" = false →
      (runEngine (some demoListing) false "n").status = RunStatus.cancelled ∧
      (runEngine (some demoListing) false "n").deletionsAttempted = []) ∧
    (runEngine (some demoListing) false "n").promptIssued = true ∧
    (isAffirmative "n" = true ↔
      (lowerTrim "n" = "y" ∨ lowerTrim "n" = "yes"))) :=
  ⟨by decide, confirmation_semantics demoListing "n" (by decide)⟩

/-! ## C8: fail-soft collection -/

/-- C8: a directory entry is skipped exactly when it failed to be
read, its metadata is unreadable, it is not a regular file, its
filename cannot be extracted, or neither creation nor modified time is
obtainable; removing such an entry from the listing does not change
the collected records (the rest are still processed); and only the
failure to enumerate the directory itself ends the run (fatal, with
nothing grouped and nothing deleted). -/
theorem collector_fail_soft (pre post : List (Option DirEntry))
    (e : Option DirEntry) (h : processEntry e = none) :
    collect (pre ++ e :: post) = collect (pre ++ post) ∧
    (∀ x : Option DirEntry, processEntry x = none ↔
      (x = none ∨ ∃ d, x = some d ∧ (d.metadata = none ∨
        ∃ m, d.metadata = some m ∧ (m.isFile = false ∨ d.filename = none ∨
          (m.created = none ∧ m.modified = none))))) ∧
    (∀ (b : Bool) (s : String),
      (runEngine none b s).status = RunStatus.fatal ∧
      (runEngine none b s).sets = [] ∧
      (runEngine none b s).deletionsAttempted = []) := by
  refine ⟨?_, ?_, ?_⟩
  · simp [collect, List.filterMap_append, List.filterMap_cons, h]
  · intro x
    cases x with
    | none => simp [processEntry]
    | some d =>
      obtain ⟨p, fn, md⟩ := d
      cases md with
      | none => simp [processEntry]
      | some m =>
        obtain ⟨isf, len, cr, mo⟩ := m
        cases isf <;> cases fn <;> cases cr <;> cases mo <;>
          simp [processEntry]
  · intro b s
    exact ⟨rfl, rfl, rfl⟩

/-- C8 witness: a subdirectory entry in the middle of the demo listing
is skipped and the other records are still collected. -/
theorem collector_fail_soft_witness :
    processEntry (some ⟨"/scan/sub", some "sub",
      some ⟨false, 0, some 3, some 3⟩⟩) = none ∧
    (collect ([some ⟨"/scan/photo.jpg", some "photo.jpg",
        some ⟨true, 1000, some 10, none⟩⟩] ++
      (some ⟨"/scan/sub", some "sub", some ⟨false, 0, some 3, some 3⟩⟩) ::
      [some ⟨"/scan/photo (1).jpg", some "photo (1).jpg",
        some ⟨true, 1000, some 20, none⟩⟩]) =
     collect ([some ⟨"/scan/photo.jpg", some "photo.jpg",
        some ⟨true, 1000, some 10, none⟩⟩] ++
      [some ⟨"/scan/photo (1).jpg", some "photo (1).jpg",
        some ⟨true, 1000, some 20, none⟩⟩]) ∧
    (∀ x : Option DirEntry, processEntry x = none ↔
      (x = none ∨ ∃ d, x = some d ∧ (d.metadata = none ∨
        ∃ m, d.metadata = some m ∧ (m.isFile = false ∨ d.filename = none ∨
          (m.created = none ∧ m.modified = none))))) ∧
    (∀ (b : Bool) (s : String),
      (runEngine none b s).status = RunStatus.fatal ∧
      (runEngine none b s).sets = [] ∧
      (runEngine none b s).deletionsAttempted = [])) :=
  ⟨by decide,
   collector_fail_soft
     [some ⟨"/scan/photo.jpg", some "photo.jpg",
       some ⟨true, 1000, some 10, none⟩⟩]
     [some ⟨"/scan/photo (1).jpg", some "photo (1).jpg",
       some ⟨true, 1000, some 20, none⟩⟩]
     (some ⟨"/scan/sub", some "sub", some ⟨false, 0, some 3, some 3⟩⟩)
     (by decide)⟩

/-! ## C1: idempotence analysis of the normalizer -/

lemma rsplitDot_eq_none {l : List Char} : rsplitDot l = none ↔ '.' ∉ l := by
  induction l with
  | nil => simp [rsplitDot]
  | cons c cs ih =>
    rw [rsplitDot, List.mem_cons]
    cases hcs : rsplitDot cs with
    | some p =>
      constructor
      · intro h
        cases h
      · intro h
        exact absurd (ih.mpr (fun hx => h (Or.inr hx))) (by simp [hcs])
    | none =>
      by_cases hc : c = '.'
      · simp [hc]
      · rw [if_neg hc]
        refine iff_of_true rfl ?_
        rintro (he | hx)
        · exact hc he.symm
        · exact ih.mp hcs hx

lemma rsplitDot_append (s ex : List Char) (hex : '.' ∉ ex) :
    rsplitDot (s ++ '.' :: ex) = some (s, ex) := by
  induction s with
  | nil =>
    rw [List.nil_append, rsplitDot, rsplitDot_eq_none.mpr hex]
    simp
  | cons c cs ih =>
    rw [List.cons_append, rsplitDot, ih]

lemma rsplitDot_some_no_dot {l st ex : List Char}
    (h : rsplitDot l = some (st, ex)) : '.' ∉ ex := by
  induction l generalizing st ex with
  | nil => cases h
  | cons c cs ih =>
    rw [rsplitDot] at h
    cases hcs : rsplitDot cs with
    | some p =>
      obtain ⟨a, b⟩ := p
      rw [hcs] at h
      cases h
      exact ih hcs
    | none =>
      rw [hcs] at h
      by_cases hc : c = '.'
      · rw [if_pos hc] at h
        cases h
        exact rsplitDot_eq_none.mp hcs
      · rw [if_neg hc] at h
        cases h

lemma matchCopyNum_sublist {r out : List Char}
    (h : matchCopyNum r = some out) : out.Sublist r := by
  simp only [matchCopyNum] at h
  split at h
  · exact Option.noConfusion h
  · split at h
    · injection h with h3
      exact h3 ▸ ((List.drop_sublist _ _).trans (List.dropWhile_sublist _))
    · exact Option.noConfusion h

lemma matchCopy_sublist {r out : List Char}
    (h : matchCopy r = some out) : out.Sublist r := by
  simp only [matchCopy] at h
  split at h
  · injection h with h3
    exact h3 ▸ List.drop_sublist _ _
  · exact Option.noConfusion h

lemma matchParenDigits_sublist {tail r out : List Char}
    (h : matchParenDigits tail r = some out) : out.Sublist r := by
  rcases r with _ | ⟨c, r2⟩
  · exact Option.noConfusion h
  · by_cases hc : c = ')'
    · subst hc
      simp only [matchParenDigits] at h
      split at h
      · exact Option.noConfusion h
      · split at h
        · injection h with h3
          exact h3 ▸ (((List.drop_sublist _ _).trans
            (List.dropWhile_sublist _)).trans (List.sublist_cons_self _ _))
        · exact Option.noConfusion h
    · have hnone : matchParenDigits tail (c :: r2) = none := by
        unfold matchParenDigits
        split
        · rename_i x heq
          rw [List.cons.injEq] at heq
          exact absurd heq.1 hc
        · rfl
      rw [hnone] at h
      exact Option.noConfusion h

lemma matchDashCopy_sublist {r out : List Char}
    (h : matchDashCopy r = some out) : out.Sublist r := by
  simp only [matchDashCopy] at h
  split at h
  · injection h with h3
    exact h3 ▸ List.drop_sublist _ _
  · exact Option.noConfusion h

lemma firstMatch_sublist {r out : List Char}
    (h : firstMatch r = some out) : out.Sublist r := by
  unfold firstMatch at h
  cases h1 : matchCopyNum r with
  | some o =>
    rw [h1] at h
    injection h with h2
    exact h2 ▸ matchCopyNum_sublist h1
  | none =>
    rw [h1] at h
    cases h2 : matchCopy r with
    | some o =>
      rw [h2] at h
      injection h with h3
      exact h3 ▸ matchCopy_sublist h2
    | none =>
      rw [h2] at h
      cases h3 : matchParenDigits ("( ypoC - ".toList) r with
      | some o =>
        rw [h3] at h
        injection h with h4
        exact h4 ▸ matchParenDigits_sublist h3
      | none =>
        rw [h3] at h
        cases h4 : matchDashCopy r with
        | some o =>
          rw [h4] at h
          injection h with h5
          exact h5 ▸ matchDashCopy_sublist h4
        | none =>
          rw [h4] at h
          cases h5 : matchParenDigits ("( ".toList) r with
          | some o =>
            rw [h5] at h
            injection h with h6
            exact h6 ▸ matchParenDigits_sublist h5
          | none =>
            rw [h5] at h
            exact matchParenDigits_sublist h

lemma stripStem_mem {s : List Char} {x : Char} (hx : x ∈ stripStem s) :
    x ∈ s := by
  unfold stripStem at hx
  cases hm : firstMatch s.reverse with
  | none =>
    rw [hm] at hx
    exact hx
  | some rest =>
    rw [hm] at hx
    rw [List.mem_reverse] at hx
    have := (firstMatch_sublist hm).subset hx
    rwa [List.mem_reverse] at this

lemma stripStem_of_no_match {s : List Char}
    (h : matchesAnyPattern s = false) : stripStem s = s := by
  unfold matchesAnyPattern at h
  unfold stripStem
  cases hm : firstMatch s.reverse with
  | none => rfl
  | some rest =>
    rw [hm] at h
    cases h

/-- C1 (amended): a single application strips at most one suffix, so
normalization is idempotent exactly on the names whose stripped stem
matches no further pattern: whenever the once-stripped stem of `name`
matches none of the six suffix patterns, re-normalizing the normalized
name changes nothing. -/
theorem normalize_idempotent_of_clean (name : String)
    (h : matchesAnyPattern (stripStem (stemOf name)) = false) :
    normalize_filename (normalize_filename name) =
      normalize_filename name := by
  have hstrip : stripStem (stripStem (stemOf name)) = stripStem (stemOf name) :=
    stripStem_of_no_match h
  cases hsplit : rsplitDot name.toList with
  | none =>
    have hstem : stemOf name = name.toList := by
      unfold stemOf
      rw [hsplit]
    have hnames : normalize_filename name = ⟨stripStem name.toList⟩ := by
      unfold normalize_filename
      rw [hsplit]
    have hnd : '.' ∉ name.toList := rsplitDot_eq_none.mp hsplit
    have hnd2 : '.' ∉ stripStem name.toList := fun hx => hnd (stripStem_mem hx)
    rw [hnames]
    unfold normalize_filename
    rw [show (String.mk (stripStem name.toList)).toList =
      stripStem name.toList from rfl]
    rw [rsplitDot_eq_none.mpr hnd2]
    show (⟨stripStem (stripStem name.toList)⟩ : String) =
      ⟨stripStem name.toList⟩
    rw [hstem] at hstrip
    rw [hstrip]
  | some p =>
    obtain ⟨st, ex⟩ := p
    have hex : '.' ∉ ex := rsplitDot_some_no_dot hsplit
    have hstem : stemOf name = st := by
      unfold stemOf
      rw [hsplit]
    have hnames : normalize_filename name = ⟨stripStem st ++ '.' :: ex⟩ := by
      unfold normalize_filename
      rw [hsplit]
    rw [hnames]
    unfold normalize_filename
    rw [show (String.mk (stripStem st ++ '.' :: ex)).toList =
      stripStem st ++ '.' :: ex from rfl]
    rw [rsplitDot_append _ _ hex]
    show (⟨stripStem (stripStem st) ++ '.' :: ex⟩ : String) =
      ⟨stripStem st ++ '.' :: ex⟩
    rw [hstem] at hstrip
    rw [hstrip]

/-- C1 witness: `"photo (1).jpg"` strips to the clean stem `"photo"`,
so its normalization is a fixed point of the normalizer. -/
theorem normalize_idempotent_of_clean_witness :
    matchesAnyPattern (stripStem (stemOf "photo (1).jpg")) = false ∧
    normalize_filename (normalize_filename "photo (1).jpg") =
      normalize_filename "photo (1).jpg" :=
  ⟨by decide, normalize_idempotent_of_clean "photo (1).jpg" (by decide)⟩

/-- C10 (grouping consequence): two unrelated files `(1).txt` and
`(2).txt` of equal size land in one duplicate set. -/
theorem empty_stem_grouped :
    duplicateSets [("(1).txt", ⟨"/scan/(1).txt", 5, 1⟩),
        ("(2).txt", ⟨"/scan/(2).txt", 5, 2⟩)] =
      [[("(1).txt", ⟨"/scan/(1).txt", 5, 1⟩),
        ("(2).txt", ⟨"/scan/(2).txt", 5, 2⟩)]] := by decide

/-- C2 witness: the two records of the demo scenario (equal normalized
name, equal size, distinct) are grouped into one set. -/
theorem grouping_correct_witness :
    ∃ S ∈ duplicateSets demoFiles, demoE1 ∈ S ∧ demoE2 ∈ S :=
  (grouping_correct demoFiles).2.2 demoE1 (by decide) demoE2 (by decide)
    (by decide) (by decide) (by decide)

/-- C4 witness: on the demo scenario the deletion pass attempts
exactly the previewed paths. -/
theorem preview_equals_execution_witness :
    attemptedDeletions demoFiles = previewedDeletions demoFiles :=
  preview_equals_execution demoFiles

/-- C6 witness: a dry run over the demo listing attempts nothing and
prompts nobody, whatever is on stdin. -/
theorem dry_run_purity_witness :
    (runEngine (some demoListing) true "yes").deletionsAttempted = [] ∧
    (runEngine (some demoListing) true "yes").promptIssued = false ∧
    (runEngine (some demoListing) true "yes").sets =
      (runEngine (some demoListing) false "n").sets ∧
    ((runEngine (some demoListing) true "yes").status = RunStatus.fatal ∨
     (runEngine (some demoListing) true "yes").status =
       RunStatus.noDuplicates ∨
     (runEngine (some demoListing) true "yes").status =
       RunStatus.dryRunDone) ∧
    (dryRunOf ["--dry-run"] = true ↔ "--dry-run" ∈ ["--dry-run"]) :=
  dry_run_purity (some demoListing) "yes" "n" ["--dry-run"]

-- End-to-end sanity checks of the embedded engine.
example :
    (runEngine (some demoListing) false "YES
").deletionsAttempted = ["/scan/photo (1).jpg"] := by decide
example : (runEngine (some demoListing) false "y").status =
    RunStatus.deleted := by decide
example : (runEngine (some demoListing) false "").status =
    RunStatus.cancelled := by decide
